import Mathlib

/-!
Verification of the address-cache core of the utreexo-electrum-server
repository (src/address_cache/mod.rs and src/address_cache/kv_database.rs).

The code is shallowly embedded: Rust strings are modelled as `List Char`
(`Str`), bytes as `Fin 256` (`Byte`), `u32`/`u64` values as `Nat` with the
range bound made explicit where it matters, fallible paths return
`Except`/`Option`, and a Rust `panic!`/`expect` is modelled by the
`PResult.panicked` constructor.  External collaborators that are not part of
this repository (rust-bitcoin's consensus (de)serialization, hex codec of
`sha256::Hash`/`Script`, txid computation, the utreexo accumulator update and
the electrum script-hash function) are modelled from the spec, each with a
doc comment saying so.
-/

namespace Utreexo

abbrev Byte := Fin 256

abbrev Str := List Char

/-! ## Hex encoding (models rust-bitcoin's `ToHex`/`FromHex`)

`bytesToHex` produces the lowercase hex rendering of a byte string, two
characters per byte, exactly as rust-bitcoin's `ToHex` does.  `hexVal`
accepts both lowercase and uppercase digits, as rust-bitcoin's `FromHex`
does; `hexPairs` fails on an odd-length or non-hex string. -/

/-- The character for a nibble value: `'0'..'9'` (codepoints 48..57) below
ten, `'a'..'f'` (codepoints 97..102) above, as rust-bitcoin's lowercase
formatter computes them from the byte value. -/
def hexCharN (d : Nat) : Char :=
  if d < 10 then Char.ofNat (48 + d)
  else if d < 16 then Char.ofNat (87 + d)
  else '0'

/-- The nibble value of a hex character, computed from its codepoint:
digits, lowercase and uppercase letters are accepted. -/
def hexVal (c : Char) : Option (Fin 16) :=
  let n := c.toNat
  if h : 48 ≤ n ∧ n ≤ 57 then some ⟨n - 48, by omega⟩
  else if h : 97 ≤ n ∧ n ≤ 102 then some ⟨n - 87, by omega⟩
  else if h : 65 ≤ n ∧ n ≤ 70 then some ⟨n - 55, by omega⟩
  else none

def mkByte (h l : Fin 16) : Byte :=
  ⟨h.val * 16 + l.val, by omega⟩

def bytesToHex : List Byte → Str
  | [] => []
  | b :: rest => hexCharN (b.val / 16) :: hexCharN (b.val % 16) :: bytesToHex rest

def hexPairs : Str → Option (List Byte)
  | [] => some []
  | [_] => none
  | c1 :: c2 :: rest =>
    match hexVal c1, hexVal c2, hexPairs rest with
    | some h, some l, some bs => some (mkByte h l :: bs)
    | _, _, _ => none

/-- `sha256::Hash::from_hex` / `Txid::from_hex`: exactly 64 hex characters
decoding to 32 bytes (rust-bitcoin rejects any other length). -/
def hashFromHex (s : Str) : Option (List Byte) :=
  match hexPairs s with
  | some bs => if bs.length = 32 then some bs else none
  | none => none

/-! ## Decimal integers (models `u32`/`u64` `Display` and `str::parse`)

Rust's unsigned `Display` prints plain decimal with no sign and no leading
zeros; `str::parse::<uN>` accepts an optional leading `'+'`, then one or more
decimal digits, and fails on overflow past `2^N - 1`. -/

/-- The value of a decimal digit character (codepoints 48..57), as Rust's
`char::to_digit(10)` computes it. -/
def digitVal (c : Char) : Option Nat :=
  if 48 ≤ c.toNat ∧ c.toNat ≤ 57 then some (c.toNat - 48) else none

def natToDecAux : Nat → Nat → Str
  | 0, _ => []
  | fuel + 1, n => if n = 0 then [] else natToDecAux fuel (n / 10) ++ [hexCharN (n % 10)]

/-- Decimal rendering of a `Nat`, as Rust `Display` for unsigned integers. -/
def natToDec (n : Nat) : Str :=
  if n = 0 then ['0'] else natToDecAux n n

def parseDigitsAux : Nat → Str → Option Nat
  | acc, [] => some acc
  | acc, c :: rest =>
    match digitVal c with
    | some d => parseDigitsAux (acc * 10 + d) rest
    | none => none

def stripPlus : Str → Str
  | '+' :: r => r
  | s => s

/-- `str::parse::<uN>` with `bound = 2^N`. -/
def parseUInt (bound : Nat) (s : Str) : Option Nat :=
  let s' := stripPlus s
  if s' = [] then none
  else
    match parseDigitsAux 0 s' with
    | some n => if n < bound then some n else none
    | none => none

/-! ## Splitting (models Rust `str::split(char)`) -/

def splitOnChar (sep : Char) : Str → List Str
  | [] => [[]]
  | c :: rest =>
    match splitOnChar sep rest with
    | [] => [[]]
    | s :: ss => if c = sep then [] :: s :: ss else (c :: s) :: ss

/-! ## Exact-size chunks (used by the accumulator decoder's 64-char drain loop
and by the modelled merkle-block deserializer).  Fuel-based so that the
definition reduces in the kernel. -/

def chunksAux (k : Nat) : Nat → List α → List (List α)
  | 0, _ => []
  | fuel + 1, l => if k ≤ l.length then l.take k :: chunksAux k fuel (l.drop k) else []

def chunks (k : Nat) (l : List α) : List (List α) :=
  chunksAux k l.length l

/-! ## Errors

The repository's `crate::error::Error` type is referenced but its source is
not under src/; the variants below model the variants the two source files
name (`DbParseError`, `WalletNotInitialized`) plus the three foreign error
kinds that the `?` operator converts into it (hex decoding, consensus
deserialization, integer parsing). -/

inductive Err where
  | DbParseError
  | WalletNotInitialized
  | HexError
  | DeserializeError
  | IntParseError
deriving DecidableEq, Repr

/-- Lifts rust-bitcoin style `Result` conversions done by `?`. -/
def ofOption (e : Err) : Option α → Except Err α
  | some a => .ok a
  | none => .error e

/-- A Rust value that is either returned normally or lost to a
`panic!`/`expect`/`unwrap` failure. -/
inductive PResult (α : Type) where
  | ok : α → PResult α
  | panicked
deriving DecidableEq, Repr

/-! ## External collaborators, modelled from the spec

The spec (sections 1 and 6) treats transaction/block binary
(de)serialization, txid computation and the electrum script-hash function as
external pure collaborators: `serialize(tx) -> bytes`,
`deserialize(bytes) -> tx` (fallible), `txid` computed from the serialized
bytes, `scriptHash(script) -> 32-byte-hash`.  They are modelled here by
concrete executable functions with the properties the repository relies on:
(de)serialization round-trips, a consensus-serialized transaction or merkle
block is never the empty byte string (both begin with a fixed-size header in
Bitcoin's consensus encoding), and the digests are 32 bytes. -/

abbrev Script := List Byte

structure TxOut where
  value : Nat
  script_pubkey : Script
deriving DecidableEq, Repr

/-- Modelled from the spec: a transaction is identified with its consensus
serialization (`bytes`) plus its output list, which the engine scans; the
decode paths of this repository use a deserialized transaction only through
`txid`, so the modelled deserializer recovers an empty output list. -/
structure Transaction where
  bytes : List Byte
  output : List TxOut
deriving DecidableEq, Repr

/-- Modelled from the spec: a 32-byte digest of a byte string, standing in
for the external SHA-256-based id computations.  No claim depends on any
cryptographic property, only on it being a pure total function into 32
bytes. -/
def digest (bs : List Byte) : List Byte :=
  (bs ++ List.replicate 32 (0 : Byte)).take 32

def Transaction.txid (t : Transaction) : List Byte :=
  digest t.bytes

/-- `serialize_hex`'s underlying `serialize`. -/
def serializeTx (t : Transaction) : List Byte :=
  t.bytes

/-- Modelled from the spec: `deserialize::<Transaction>`.  Fails on the
empty byte string (a consensus transaction starts with a 4-byte version
field), succeeds otherwise; only the txid of the result is ever used by the
decode paths. -/
def deserializeTx (bs : List Byte) : Option Transaction :=
  if bs = [] then none else some ⟨bs, []⟩

/-- Modelled from the spec: a compact merkle proof, used by the repository
only through equality, (de)serialization and its `txn.hashes()` list. -/
structure MerkleBlock where
  hashes : List (List Byte)
deriving DecidableEq, Repr

def countBytes4 (n : Nat) : List Byte :=
  [⟨n / 2 ^ 24 % 256, Nat.mod_lt _ (by omega)⟩,
   ⟨n / 2 ^ 16 % 256, Nat.mod_lt _ (by omega)⟩,
   ⟨n / 2 ^ 8 % 256, Nat.mod_lt _ (by omega)⟩,
   ⟨n % 256, Nat.mod_lt _ (by omega)⟩]

/-- Modelled from the spec: `serialize` of a merkle block — an injective
byte encoding (on proofs whose hashes are 32 bytes each) that is never the
empty byte string, since the real consensus encoding always begins with an
80-byte block header. -/
def serializeMB (m : MerkleBlock) : List Byte :=
  countBytes4 m.hashes.length ++ m.hashes.flatten

/-- Modelled from the spec: `deserialize::<MerkleBlock>` — inverse of
`serializeMB`; in particular it fails on the empty byte string, as the real
consensus decoder does (it cannot even read the block header). -/
def deserializeMB : List Byte → Option MerkleBlock
  | b3 :: b2 :: b1 :: b0 :: rest =>
    let n := b3.val * 2 ^ 24 + b2.val * 2 ^ 16 + b1.val * 2 ^ 8 + b0.val
    if rest.length = 32 * n then some ⟨chunks 32 rest⟩ else none
  | _ => none

/-- Modelled from the spec: `get_spk_hash` (electrum script hash) lives in
src/electrum/electrum_protocol.rs, which is not among the source files; the
spec describes it as a pure 32-byte digest of the script. -/
def get_spk_hash (s : Script) : List Byte :=
  digest s

/-! ## Record Codec (src/address_cache/mod.rs lines 26-124 and
kv_database.rs `save`) -/

structure CachedTransaction where
  tx_hex : Str
  height : Nat
  merkle_block : Option MerkleBlock
  hash : Str
  position : Nat
deriving DecidableEq, Repr

/-- The `Display` impl for `CachedTransaction`:
`"{tx_hex};{height};{position};{merkle_block_hex}"`, the proof hex empty
when the proof is absent. -/
def CachedTransaction.display (t : CachedTransaction) : Str :=
  let merkle_block :=
    match t.merkle_block with
    | some mb => bytesToHex (serializeMB mb)
    | none => []
  t.tx_hex ++ (';' :: (natToDec t.height ++ (';' :: (natToDec t.position ++
    (';' :: merkle_block)))))

/-- `get_arg`: take the next segment of the split, `DbParseError` when the
iterator is exhausted. -/
def get_arg (split : List Str) : Except Err (Str × List Str) :=
  match split with
  | [] => .error .DbParseError
  | x :: r => .ok (x, r)

/-- `TryFrom<String> for CachedTransaction`: split on `';'`, take four
segments, hex-decode and deserialize the proof and the transaction, parse
height and position as `u32`, and recompute the txid from the transaction
rather than read it from storage. -/
def CachedTransaction.tryFrom (value : Str) : Except Err CachedTransaction := do
  let transaction := splitOnChar ';' value
  let (tx_hex, transaction) ← get_arg transaction
  let (height, transaction) ← get_arg transaction
  let (position, transaction) ← get_arg transaction
  let (merkle_block, _) ← get_arg transaction
  let mbBytes ← ofOption .HexError (hexPairs merkle_block)
  let mb ← ofOption .DeserializeError (deserializeMB mbBytes)
  let txBytes ← ofOption .HexError (hexPairs tx_hex)
  let tx ← ofOption .DeserializeError (deserializeTx txBytes)
  let heightN ← ofOption .IntParseError (parseUInt (2 ^ 32) height)
  let positionN ← ofOption .IntParseError (parseUInt (2 ^ 32) position)
  .ok ⟨tx_hex, heightN, some mb, bytesToHex tx.txid, positionN⟩

structure CachedAddress where
  script_hash : List Byte
  balance : Nat
  transactions : List CachedTransaction
  script : Script
deriving DecidableEq, Repr

/-- The value string `KvDatabase::save` persists for an address:
`"{script_hash}:{balance}:{script_hex}:"` followed by each transaction's
`Display` rendering, each with a trailing `':'`. -/
def CachedAddress.encode (a : CachedAddress) : Str :=
  let transactions := (a.transactions.map (fun t => t.display ++ [':'])).flatten
  bytesToHex a.script_hash ++ (':' :: (natToDec a.balance ++ (':' ::
    (bytesToHex a.script ++ (':' :: transactions)))))

/-- The `for transaction in address` loop of `TryFrom<String> for
CachedAddress`: empty segments are skipped, the rest must decode. -/
def decodeTxSegments : List Str → Except Err (List CachedTransaction)
  | [] => .ok []
  | s :: rest =>
    if s = [] then decodeTxSegments rest
    else do
      let t ← CachedTransaction.tryFrom s
      let ts ← decodeTxSegments rest
      .ok (t :: ts)

/-- `TryFrom<String> for CachedAddress`: split on `':'`, read script-hash,
balance and script, then decode every remaining non-empty segment as a
transaction record; the balance string is parsed (as `u64`) when the struct
is built, after the loop. -/
def CachedAddress.tryFrom (value : Str) : Except Err CachedAddress := do
  let address := splitOnChar ':' value
  let (script_hash, address) ← get_arg address
  let script_hashB ← ofOption .HexError (hashFromHex script_hash)
  let (balance, address) ← get_arg address
  let (script, address) ← get_arg address
  let scriptB ← ofOption .HexError (hexPairs script)
  let transactions ← decodeTxSegments address
  let balanceN ← ofOption .IntParseError (parseUInt (2 ^ 64) balance)
  .ok ⟨script_hashB, balanceN, transactions, scriptB⟩

/-! ## Accumulator Snapshot Codec (src/address_cache/mod.rs `save_acc` /
`load_acc`) -/

/-- `rustreexo`'s `Stump`: a `u64` leaf count and an ordered list of 32-byte
roots. -/
structure Stump where
  leafs : Nat
  roots : List (List Byte)
deriving DecidableEq, Repr

/-- `Stump::new()`. -/
def Stump.new : Stump :=
  ⟨0, []⟩

/-- The string `save_acc` hands to the chain store: the decimal leaf count,
one space, then every root's 64 hex characters concatenated. -/
def Stump.encode (s : Stump) : Str :=
  natToDec s.leafs ++ ' ' :: (s.roots.map bytesToHex).flatten

/-- The `while acc.len() >= 64` drain loop's per-chunk
`sha256::Hash::from_hex(..).expect(..)`: all chunks must parse, the first
failure being a panic. -/
def mapHashes : List Str → Option (List (List Byte))
  | [] => some []
  | s :: rest =>
    match hashFromHex s, mapHashes rest with
    | some h, some hs => some (h :: hs)
    | _, _ => none

/-- `load_acc`: absent snapshot decodes to a fresh `Stump`; otherwise split
on `' '`, parse the first part as the `u64` leaf count, and drain 64-char
chunks off the second part (anything past the second part, or a trailing
remainder shorter than 64 characters, is ignored); every `expect` is a
panic, modelled as `PResult.panicked`. -/
def load_acc (stored : Option Str) : PResult Stump :=
  match stored with
  | none => .ok Stump.new
  | some acc =>
    match splitOnChar ' ' acc with
    | [] => .panicked
    | leaves :: rest =>
      match parseUInt (2 ^ 64) leaves with
      | none => .panicked
      | some leavesN =>
        match rest.head? with
        | none => .ok ⟨leavesN, []⟩
        | some part =>
          match mapHashes (chunks 64 part) with
          | none => .panicked
          | some roots => .ok ⟨leavesN, roots⟩

/-! ## Address Cache Engine (src/address_cache/mod.rs lines 168-422)

The three in-memory indices are modelled as association lists with the
hash-map semantics of `HashMap::insert` (replace the value of a present key,
add the pair otherwise) and `HashSet::insert`.  The write-through database
calls (`save`/`update`, each an upsert of the full record followed by a
flush) do not feed back into the in-memory state, so they carry no state
here; the record they would write is exactly `CachedAddress.encode` of the
map entry, proved against the codec claims separately. -/

def lookupA (l : List (List Byte × α)) (k : List Byte) : Option α :=
  match l with
  | [] => none
  | (k', v) :: rest => if k' = k then some v else lookupA rest k

def insertA (l : List (List Byte × α)) (k : List Byte) (v : α) : List (List Byte × α) :=
  match l with
  | [] => [(k, v)]
  | (k', v') :: rest => if k' = k then (k, v) :: rest else (k', v') :: insertA rest k v

def insertS [DecidableEq α] (l : List α) (a : α) : List α :=
  match l with
  | [] => [a]
  | x :: rest => if x = a then x :: rest else x :: insertS rest a

structure AddressCache where
  address_map : List (List Byte × CachedAddress)
  script_set : List Script
  tx_index : List (List Byte × (List Byte × Nat))
  acc : Stump
deriving DecidableEq, Repr

/-- `cache_address`: compute the script hash, build a fresh empty-history
zero-balance record, persist it, and insert it into `address_map` and the
script into `script_set` — unconditionally, so an already-watched hash has
its record replaced. -/
def AddressCache.cache_address (c : AddressCache) (script_pk : Script) : AddressCache :=
  let hash := get_spk_hash script_pk
  let new_address : CachedAddress := ⟨hash, 0, [], script_pk⟩
  { c with
    address_map := insertA c.address_map hash new_address
    script_set := insertS c.script_set script_pk }

/-- The `transaction_to_cache` record `cache_transaction` builds: the
serialized transaction as hex, the height, the proof, the txid rendered as
text, and the in-block position. -/
def txRecord (transaction : Transaction) (height : Nat) (merkle_block : MerkleBlock)
    (position : Nat) : CachedTransaction :=
  ⟨bytesToHex (serializeTx transaction), height, some merkle_block,
    bytesToHex transaction.txid, position⟩

/-- `cache_transaction`: build the record for (transaction, height, proof,
position); if the output's script hash is watched, return early when an
identical record is already in the history, otherwise index the txid at the
history's current length and append; if it is not watched, auto-subscribe
with a single-transaction history (note: this branch does not touch
`tx_index`). -/
def AddressCache.cache_transaction (c : AddressCache) (transaction : Transaction)
    (height : Nat) (out : TxOut) (merkle_block : MerkleBlock) (position : Nat) :
    AddressCache :=
  let transaction_to_cache : CachedTransaction :=
    txRecord transaction height merkle_block position
  let hash := get_spk_hash out.script_pubkey
  match lookupA c.address_map hash with
  | some address =>
    if transaction_to_cache ∈ address.transactions then c
    else
      { c with
        tx_index := insertA c.tx_index transaction.txid
          (address.script_hash, address.transactions.length)
        address_map := insertA c.address_map hash
          { address with transactions := address.transactions ++ [transaction_to_cache] } }
  | none =>
    let new_address : CachedAddress := ⟨hash, 0, [transaction_to_cache], out.script_pubkey⟩
    { c with
      address_map := insertA c.address_map hash new_address
      script_set := insertS c.script_set out.script_pubkey }

/-- `get_transaction`: follow `tx_index` into the owning address's history;
any dangling step yields `None`. -/
def AddressCache.get_transaction (c : AddressCache) (txid : List Byte) :
    Option CachedTransaction :=
  match lookupA c.tx_index txid with
  | some (address, idx) =>
    match lookupA c.address_map address with
    | some address => address.transactions.get? idx
    | none => none
  | none => none

def AddressCache.get_address_history (c : AddressCache) (script_hash : List Byte) :
    List CachedTransaction :=
  match lookupA c.address_map script_hash with
  | some cached_script => cached_script.transactions
  | none => []

def AddressCache.get_address_balance (c : AddressCache) (script_hash : List Byte) : Nat :=
  match lookupA c.address_map script_hash with
  | some cached_script => cached_script.balance
  | none => 0

/-- `get_merkle_proof`: hex-render every proof hash different from the
target txid (rust-bitcoin includes the target, electrum clients expect it
excluded); the `merkle_block.unwrap()` on a record without a proof is a
panic. -/
def AddressCache.get_merkle_proof (c : AddressCache) (txid : List Byte) :
    PResult (Option (List Str × Nat)) :=
  match c.get_transaction txid with
  | some tx =>
    match tx.merkle_block with
    | none => .panicked
    | some mb =>
      .ok (some ((mb.hashes.filter (fun h => h ≠ txid)).map bytesToHex, tx.position))
  | none => .ok none

def AddressCache.get_height (c : AddressCache) (txid : List Byte) : Option Nat :=
  match c.get_transaction txid with
  | some tx => some tx.height
  | none => none

def AddressCache.get_cached_transaction (c : AddressCache) (txid : List Byte) :
    Option Str :=
  match c.get_transaction txid with
  | some tx => some tx.tx_hex
  | none => none

/-- `KvDatabase::get_cache_height`: the "height" meta key's stored string,
parsed as `u32`; `WalletNotInitialized` when the key is absent. -/
def get_cache_height (stored : Option Str) : Except Err Nat :=
  match stored with
  | some height => ofOption .IntParseError (parseUInt (2 ^ 32) height)
  | none => .error .WalletNotInitialized

/-- `get_sync_limits`: the inclusive range `(height + 1)..=current_hight`,
the start computed in `u32` arithmetic (release-mode wrapping); modelled as
the (start, end) pair of the `RangeInclusive`. -/
def get_sync_limits (stored : Option Str) (current_hight : Nat) :
    Except Err (Nat × Nat) := do
  let height ← get_cache_height stored
  .ok ((height + 1) % 2 ^ 32, current_hight)

/-! ## Construction (`AddressCache::new`) -/

/-- The inner `for (pos, tx) in address.transactions.iter().enumerate()`
loop of `new`: index every stored transaction's txid at its position.  The
`getD []` default is never reached in a cache `new` actually returns: `new`
panics (below) when any stored hash fails `Txid::from_hex`. -/
def indexTxs (sh : List Byte) : Nat → List CachedTransaction →
    List (List Byte × (List Byte × Nat)) → List (List Byte × (List Byte × Nat))
  | _, [], ti => ti
  | pos, t :: rest, ti =>
    indexTxs sh (pos + 1) rest (insertA ti ((hashFromHex t.hash).getD []) (sh, pos))

/-- The `for address in scripts` loop of `new`, threading the three indices. -/
def loadAddresses : List CachedAddress → AddressCache → AddressCache
  | [], c => c
  | a :: rest, c =>
    loadAddresses rest
      { c with
        tx_index := indexTxs a.script_hash 0 a.transactions c.tx_index
        script_set := insertS c.script_set a.script
        address_map := insertA c.address_map a.script_hash a }

/-- `AddressCache::new`, taking what the database `load` and the chain
store's `load_roots` return: rebuild the three indices from the loaded
addresses and load the accumulator; a stored transaction hash that
`Txid::from_hex` rejects is an `expect` panic, as is a corrupt accumulator
string. -/
def AddressCache.new (scripts : List CachedAddress) (accStr : Option Str) :
    PResult AddressCache :=
  if scripts.all (fun a => a.transactions.all (fun t => (hashFromHex t.hash).isSome)) then
    match load_acc accStr with
    | .ok acc => .ok (loadAddresses scripts ⟨[], [], [], acc⟩)
    | .panicked => .panicked
  else .panicked

/-! ## Block processing -/

structure Block where
  txdata : List Transaction
deriving DecidableEq, Repr

/-- Modelled from the spec: `MerkleBlock::from_block_with_predicate(block,
|txid| *txid == my_txid)` is external (rust-bitcoin); the model keeps the
fact the repository relies on — it is a pure function of the block and the
target id, whose hash list contains the target (which `get_merkle_proof`
later filters out). -/
def mkMerkleBlock (b : Block) (target : List Byte) : MerkleBlock :=
  ⟨target :: (b.txdata.map Transaction.txid).filter (fun h => h ≠ target)⟩

/-- The inner `for output in transaction.output` loop of `block_process`:
each output whose script is in the (evolving) `script_set` is cached. -/
def processOutputs (b : Block) (transaction : Transaction) (height position : Nat) :
    List TxOut → AddressCache → AddressCache
  | [], c => c
  | out :: rest, c =>
    let c' :=
      if out.script_pubkey ∈ c.script_set then
        c.cache_transaction transaction height out
          (mkMerkleBlock b transaction.txid) position
      else c
    processOutputs b transaction height position rest c'

/-- The outer `for (position, transaction) in block.txdata` loop.  The
`position as u32` cast is modelled as `Nat`: a block's transaction count is
far below `2^32`, so the cast never truncates. -/
def processTxs (b : Block) (height : Nat) :
    Nat → List Transaction → AddressCache → AddressCache
  | _, [], c => c
  | position, tx :: rest, c =>
    processTxs b height (position + 1) rest (processOutputs b tx height position tx.output c)

/-- `block_process`: update the accumulator through the external sync
engine's routine (modelled from the spec: its successful result `newAcc` is
taken as an input, a failed update being a fatal panic before any index
changes), then scan the block's transactions in order.  The returned list of
matched (transaction, output) pairs does not feed back into the state and is
omitted. -/
def AddressCache.block_process (c : AddressCache) (block : Block) (height : Nat)
    (newAcc : Stump) : AddressCache :=
  processTxs block height 0 block.txdata { c with acc := newAcc }

/-! ## Reachable engine states

A state is reachable when it arises from `new` on the contents of a
persisted database followed by any sequence of `cache_address`,
`cache_transaction` and `block_process`.  `LoadWf` captures what the
key-value store guarantees about what `load` can return: the records sit
under distinct script-hash keys (`save` keys each record by its
`script_hash`), and each record's `script_hash` is the script hash of its
`script` (every record ever persisted is built that way by `cache_address`
and `cache_transaction`, and the codec round-trips both fields). -/

def LoadWf (scripts : List CachedAddress) : Prop :=
  scripts.Pairwise (fun a b => a.script_hash ≠ b.script_hash) ∧
    ∀ a ∈ scripts, a.script_hash = get_spk_hash a.script

inductive Reachable : AddressCache → Prop where
  | base (scripts : List CachedAddress) (accStr : Option Str) (c : AddressCache) :
      LoadWf scripts → AddressCache.new scripts accStr = .ok c → Reachable c
  | watch (c : AddressCache) (s : Script) :
      Reachable c → Reachable (c.cache_address s)
  | cacheTx (c : AddressCache) (t : Transaction) (height : Nat) (out : TxOut)
      (mb : MerkleBlock) (position : Nat) :
      Reachable c → Reachable (c.cache_transaction t height out mb position)
  | blockP (c : AddressCache) (b : Block) (height : Nat) (newAcc : Stump) :
      Reachable c → Reachable (c.block_process b height newAcc)

/-- Reachability restricted to runs that never call `cache_address` on a
script whose hash is already watched (`cache_address` unconditionally
replaces the record, which is what breaks the unrestricted reverse-index
invariant). -/
inductive ReachableFresh : AddressCache → Prop where
  | base (scripts : List CachedAddress) (accStr : Option Str) (c : AddressCache) :
      LoadWf scripts → AddressCache.new scripts accStr = .ok c → ReachableFresh c
  | watch (c : AddressCache) (s : Script) :
      ReachableFresh c → lookupA c.address_map (get_spk_hash s) = none →
      ReachableFresh (c.cache_address s)
  | cacheTx (c : AddressCache) (t : Transaction) (height : Nat) (out : TxOut)
      (mb : MerkleBlock) (position : Nat) :
      ReachableFresh c → ReachableFresh (c.cache_transaction t height out mb position)
  | blockP (c : AddressCache) (b : Block) (height : Nat) (newAcc : Stump) :
      ReachableFresh c → ReachableFresh (c.block_process b height newAcc)

/-! ## Validity predicates used by the claims -/

/-- Well-formedness of a merkle-block model value as rust-bitcoin's type
grants it: each proof hash is 32 bytes and there are fewer than `2^32` of
them. -/
def MBWf (m : MerkleBlock) : Prop :=
  m.hashes.length < 2 ^ 32 ∧ ∀ h ∈ m.hashes, h.length = 32

/-- A `CachedTransaction` that is valid in the sense of claim C1 — the
stored `tx_hex` hex-decodes and deserializes to a transaction whose id
(canonically rendered) is the stored `hash` — together with the bounds the
Rust field types `u32` impose, and (the amendment) an actually present,
well-formed merkle proof. -/
def TxRecordWf (t : CachedTransaction) : Prop :=
  t.height < 2 ^ 32 ∧ t.position < 2 ^ 32 ∧
    (∃ bs tx, hexPairs t.tx_hex = some bs ∧ deserializeTx bs = some tx ∧
      t.hash = bytesToHex tx.txid) ∧
    ∃ mb, t.merkle_block = some mb ∧ MBWf mb

/-- A valid `CachedAddress`: the Rust types force a 32-byte script hash and
a `u64` balance; each transaction is a valid record. -/
def AddrRecordWf (a : CachedAddress) : Prop :=
  a.script_hash.length = 32 ∧ a.balance < 2 ^ 64 ∧ ∀ t ∈ a.transactions, TxRecordWf t

/-- Claim C6's own description of the decodable strings, written from the
claim's words for the refinement comparison: exactly four `';'`-separated
segments, `txHex` valid hex of a deserializable transaction, height and
position unsigned decimal digit strings, and `merkleProofHex` the hex of a
serialized proof or the empty string. -/
def ClaimC6Shape (s : Str) : Prop :=
  ∃ a b c d, splitOnChar ';' s = [a, b, c, d] ∧
    (∃ bs tx, hexPairs a = some bs ∧ deserializeTx bs = some tx) ∧
    b ≠ [] ∧ (∀ ch ∈ b, (digitVal ch).isSome) ∧
    c ≠ [] ∧ (∀ ch ∈ c, (digitVal ch).isSome) ∧
    (d = [] ∨ ∃ bs mb, hexPairs d = some bs ∧ deserializeMB bs = some mb)

/-- The success conditions `CachedTransaction::try_from` actually imposes
(the amended C6): at least four segments (further ones ignored), the fourth
the hex of a deserializable — hence nonempty — serialized proof, the first
the hex of a deserializable transaction, the second and third `u32`-parsable
(optional leading `'+'`, decimal digits, value below `2^32`). -/
def TxDecodeOk (s : Str) : Prop :=
  ∃ a b c d rest, splitOnChar ';' s = a :: b :: c :: d :: rest ∧
    (∃ bs mb, hexPairs d = some bs ∧ deserializeMB bs = some mb) ∧
    (∃ bs tx, hexPairs a = some bs ∧ deserializeTx bs = some tx) ∧
    (parseUInt (2 ^ 32) b).isSome ∧ (parseUInt (2 ^ 32) c).isSome

/-- Claim C1's own notion of a valid address, written from the claim's words
for the refinement comparison: the Rust field types' ranges, and each
transaction's `txHex` deserializing to a transaction whose id equals the
stored txid (any merkle proof that is present being well-formed — but the
proof is not required to be present). -/
def ClaimC1Valid (a : CachedAddress) : Prop :=
  a.script_hash.length = 32 ∧ a.balance < 2 ^ 64 ∧
    ∀ t ∈ a.transactions, t.height < 2 ^ 32 ∧ t.position < 2 ^ 32 ∧
      (∀ mb, t.merkle_block = some mb → MBWf mb) ∧
      ∃ bs tx, hexPairs t.tx_hex = some bs ∧ deserializeTx bs = some tx ∧
        t.hash = bytesToHex tx.txid

/-- Well-formedness of an accumulator snapshot as the Rust types grant it:
a `u64` leaf count and 32-byte roots. -/
def StumpWf (s : Stump) : Prop :=
  s.leafs < 2 ^ 64 ∧ ∀ r ∈ s.roots, r.length = 32

/-- Every script in `script_set` has its script hash present in
`address_map` (`cache_address` and the auto-subscribe branch of
`cache_transaction` always insert both, and `new` loads records whose
`script_hash` is the hash of their `script`). -/
def ScriptSetInv (c : AddressCache) : Prop :=
  ∀ s ∈ c.script_set, (lookupA c.address_map (get_spk_hash s)).isSome

/-- Every `address_map` entry is keyed by its record's `script_hash`. -/
def KeyInv (c : AddressCache) : Prop :=
  ∀ h a, lookupA c.address_map h = some a → a.script_hash = h

/-- The reverse-index integrity invariant of claim C2: every `tx_index`
entry points at a live slot of the owning address's history holding a record
whose stored txid is the entry's key. -/
def TxIndexInv (c : AddressCache) : Prop :=
  ∀ txid sh pos, lookupA c.tx_index txid = some (sh, pos) →
    ∃ a, lookupA c.address_map sh = some a ∧
      ∃ t, a.transactions.get? pos = some t ∧ hashFromHex t.hash = some txid

/-! ## Concrete values used by counterexamples and witnesses -/

/-- A transaction record without its merkle proof: its encoding has an empty
`merkleProofHex` segment, which the decoder rejects. -/
def badTx : CachedTransaction :=
  ⟨['0', '1'], 0, none, bytesToHex (Transaction.txid ⟨[1], []⟩), 0⟩

def c1Bad : CachedAddress :=
  ⟨List.replicate 32 0, 0, [badTx], []⟩

def goodTx : CachedTransaction :=
  ⟨['0', '1'], 100, some ⟨[List.replicate 32 2]⟩,
    bytesToHex (Transaction.txid ⟨[1], []⟩), 0⟩

def c1Good : CachedAddress :=
  ⟨List.replicate 32 0, 7, [goodTx], [0, 1]⟩

/-- A record string with five `';'`-separated segments; the decoder takes
the first four and ignores the rest. -/
def c6FiveSegs : Str :=
  ['0', '1', ';', '0', ';', '0', ';', '0', '0', '0', '0', '0', '0', '0', '0', ';', 'x']

def initCache : AddressCache :=
  ⟨[], [], [], Stump.new⟩

def txA : Transaction :=
  ⟨[1, 2, 3], [⟨50, [9, 9]⟩]⟩

def outA : TxOut :=
  ⟨50, [9, 9]⟩

def mbA : MerkleBlock :=
  ⟨[[7]]⟩

/-- Watch the script `[9, 9]`, then cache a transaction paying it: the state
has one address with a one-record history and one `tx_index` entry. -/
def wState : AddressCache :=
  (initCache.cache_address [9, 9]).cache_transaction txA 100 outA mbA 0

deriving instance DecidableEq for Except

/-! # Theorems -/

/-! ## Hex codec lemmas -/

theorem hexVal_hexCharN (d : Nat) (h : d < 16) : hexVal (hexCharN d) = some ⟨d, h⟩ := by
  interval_cases d <;> rfl

theorem hexPairs_bytesToHex (bs : List Byte) : hexPairs (bytesToHex bs) = some bs := by
  induction bs with
  | nil => rfl
  | cons b rest ih =>
    have hb := b.isLt
    have h1 := hexVal_hexCharN (b.val / 16) (by omega)
    have h2 := hexVal_hexCharN (b.val % 16) (by omega)
    simp only [bytesToHex, hexPairs, h1, h2, ih]
    congr 1
    have : mkByte ⟨b.val / 16, by omega⟩ ⟨b.val % 16, by omega⟩ = b := by
      simp only [mkByte]
      exact Fin.ext (by simp only []; omega)
    rw [this]

theorem bytesToHex_injective (bs bs' : List Byte) (h : bytesToHex bs = bytesToHex bs') :
    bs = bs' := by
  have h1 := hexPairs_bytesToHex bs
  have h2 := hexPairs_bytesToHex bs'
  rw [h] at h1
  rw [h1] at h2
  exact (Option.some.injEq _ _).mp h2

theorem hexPairs_chars : ∀ (s : Str) (bs : List Byte), hexPairs s = some bs →
    ∀ c ∈ s, (hexVal c).isSome
  | [], _, _, c, hc => by simp at hc
  | [_], bs, h, c, hc => by simp [hexPairs] at h
  | c1 :: c2 :: rest, bs, h, c, hc => by
    simp only [hexPairs] at h
    rcases h1 : hexVal c1 with _ | v1 <;> rw [h1] at h
    · exact absurd h (by simp)
    rcases h2 : hexVal c2 with _ | v2 <;> rw [h2] at h
    · exact absurd h (by simp)
    rcases h3 : hexPairs rest with _ | bs' <;> rw [h3] at h
    · exact absurd h (by simp)
    simp only [List.mem_cons] at hc
    rcases hc with rfl | rfl | hc
    · simp [h1]
    · simp [h2]
    · exact hexPairs_chars rest bs' h3 c hc

theorem bytesToHex_chars (bs : List Byte) : ∀ c ∈ bytesToHex bs, (hexVal c).isSome :=
  hexPairs_chars _ bs (hexPairs_bytesToHex bs)

theorem hexVal_semicolon : hexVal ';' = none := rfl

theorem hexVal_colon : hexVal ':' = none := rfl

theorem hexVal_space : hexVal ' ' = none := rfl

theorem not_mem_of_hexPairs (s : Str) (bs : List Byte) (h : hexPairs s = some bs)
    (c : Char) (hc : hexVal c = none) : c ∉ s := by
  intro hmem
  have := hexPairs_chars s bs h c hmem
  rw [hc] at this
  simp at this

theorem bytesToHex_length (bs : List Byte) : (bytesToHex bs).length = 2 * bs.length := by
  induction bs with
  | nil => rfl
  | cons b rest ih => simp [bytesToHex, ih]; omega

/-! ## Decimal lemmas -/

theorem digitVal_hexCharN (d : Nat) (h : d < 10) : digitVal (hexCharN d) = some d := by
  interval_cases d <;> rfl

theorem natToDecAux_digits : ∀ (fuel n : Nat), ∀ c ∈ natToDecAux fuel n, (digitVal c).isSome
  | 0, n => by simp [natToDecAux]
  | fuel + 1, n => by
    intro c hc
    simp only [natToDecAux] at hc
    by_cases h0 : n = 0
    · simp [h0] at hc
    · rw [if_neg h0] at hc
      rcases List.mem_append.mp hc with hc | hc
      · exact natToDecAux_digits fuel (n / 10) c hc
      · have : c = hexCharN (n % 10) := by simpa using hc
        rw [this, digitVal_hexCharN (n % 10) (Nat.mod_lt _ (by omega))]
        rfl

theorem natToDec_digits (n : Nat) : ∀ c ∈ natToDec n, (digitVal c).isSome := by
  intro c hc
  by_cases h0 : n = 0
  · simp [natToDec, h0] at hc
    simp [hc]; rfl
  · simp only [natToDec, if_neg h0] at hc
    exact natToDecAux_digits n n c hc

theorem natToDec_not_mem (n : Nat) (c : Char) (hc : digitVal c = none) : c ∉ natToDec n := by
  intro hmem
  have := natToDec_digits n c hmem
  rw [hc] at this
  simp at this

theorem natToDec_ne_nil (n : Nat) : natToDec n ≠ [] := by
  by_cases h0 : n = 0
  · simp [natToDec, h0]
  · simp only [natToDec, if_neg h0]
    rcases n with _ | m
    · exact absurd rfl h0
    · simp only [natToDecAux, if_neg h0]
      simp

theorem parseDigitsAux_natToDecAux : ∀ (fuel n acc : Nat) (rest : Str), n ≤ fuel →
    parseDigitsAux acc (natToDecAux fuel n ++ rest) =
      parseDigitsAux (acc * 10 ^ (natToDecAux fuel n).length + n) rest
  | 0, n, acc, rest, hle => by
    have : n = 0 := by omega
    simp [this, natToDecAux]
  | fuel + 1, n, acc, rest, hle => by
    by_cases h0 : n = 0
    · simp [h0, natToDecAux]
    · have hlt : n / 10 < n := Nat.div_lt_self (by omega) (by omega)
      have hle' : n / 10 ≤ fuel := by omega
      simp only [natToDecAux, if_neg h0, List.append_assoc, List.cons_append,
        List.nil_append]
      rw [parseDigitsAux_natToDecAux fuel (n / 10) acc (hexCharN (n % 10) :: rest) hle']
      simp only [parseDigitsAux, digitVal_hexCharN (n % 10) (Nat.mod_lt _ (by omega))]
      have harith : (acc * 10 ^ (natToDecAux fuel (n / 10)).length + n / 10) * 10 + n % 10 =
          acc * 10 ^ (natToDecAux fuel (n / 10) ++ [hexCharN (n % 10)]).length + n := by
        simp only [List.length_append, List.length_cons, List.length_nil]
        rw [pow_succ]
        have := Nat.div_add_mod n 10
        ring_nf
        omega
      rw [harith]

theorem parseDigits_natToDec (n : Nat) : parseDigitsAux 0 (natToDec n) = some n := by
  by_cases h0 : n = 0
  · simp [h0, natToDec, parseDigitsAux, digitVal]
  · simp only [natToDec, if_neg h0]
    have := parseDigitsAux_natToDecAux n n 0 [] (le_refl n)
    simpa [parseDigitsAux] using this

theorem stripPlus_natToDec (n : Nat) : stripPlus (natToDec n) = natToDec n := by
  rcases hd : natToDec n with _ | ⟨c, r⟩
  · exact absurd hd (natToDec_ne_nil n)
  · have hc : (digitVal c).isSome := natToDec_digits n c (by rw [hd]; simp)
    have hne : c ≠ '+' := by
      intro h
      rw [h] at hc
      simp [digitVal] at hc
    simp only [stripPlus]
    split
    · rename_i heq
      exact absurd (by injection heq) hne
    · rfl

theorem parseUInt_natToDec (bound n : Nat) (h : n < bound) :
    parseUInt bound (natToDec n) = some n := by
  simp only [parseUInt, stripPlus_natToDec, if_neg (natToDec_ne_nil n),
    parseDigits_natToDec, if_pos h]

/-! ## Split lemmas -/

theorem splitOnChar_ne_nil (sep : Char) (s : Str) : splitOnChar sep s ≠ [] := by
  cases s with
  | nil => simp [splitOnChar]
  | cons c rest =>
    simp only [splitOnChar]
    rcases splitOnChar sep rest with _ | ⟨hd, tl⟩
    · simp
    · by_cases h : c = sep <;> simp [h]

theorem splitOnChar_of_not_mem (sep : Char) (s : Str) (h : sep ∉ s) :
    splitOnChar sep s = [s] := by
  induction s with
  | nil => rfl
  | cons c rest ih =>
    have hc : c ≠ sep := fun he => h (he ▸ List.mem_cons_self c rest)
    have hrest : sep ∉ rest := fun hm => h (List.mem_cons_of_mem c hm)
    simp only [splitOnChar, ih hrest, if_neg hc]

theorem splitOnChar_append (sep : Char) (a rest : Str) (h : sep ∉ a) :
    splitOnChar sep (a ++ sep :: rest) = a :: splitOnChar sep rest := by
  induction a with
  | nil =>
    simp only [List.nil_append, splitOnChar]
    rcases hs : splitOnChar sep rest with _ | ⟨hd, tl⟩
    · exact absurd hs (splitOnChar_ne_nil sep rest)
    · simp
  | cons c a' ih =>
    have hc : c ≠ sep := fun he => h (he ▸ List.mem_cons_self c a')
    have ha' : sep ∉ a' := fun hm => h (List.mem_cons_of_mem c hm)
    have ihe : splitOnChar sep (a'.append (sep :: rest)) = a' :: splitOnChar sep rest :=
      ih ha'
    simp only [List.cons_append, splitOnChar, ihe, if_neg hc]

/-! ## Chunk lemmas -/

theorem chunksAux_exact (k : Nat) (hk : 0 < k) :
    ∀ (blocks : List (List α)) (tail : List α) (fuel : Nat),
      (∀ b ∈ blocks, b.length = k) → tail.length < k →
      (blocks.flatten ++ tail).length ≤ fuel →
      chunksAux k fuel (blocks.flatten ++ tail) = blocks
  | [], tail, fuel, _, htail, _ => by
    cases fuel with
    | zero => simp [chunksAux]
    | succ f =>
      simp only [List.flatten_nil, List.nil_append, chunksAux]
      rw [if_neg (by omega)]
  | b :: bs, tail, fuel, hblocks, htail, hfuel => by
    have hb : b.length = k := hblocks b (List.mem_cons_self b bs)
    have hlen : (List.flatten (b :: bs) ++ tail).length =
        k + (bs.flatten ++ tail).length := by
      simp only [List.flatten_cons, List.length_append, hb, List.append_assoc]
    cases fuel with
    | zero => omega
    | succ f =>
      simp only [chunksAux]
      rw [if_pos (by omega)]
      have harr : List.flatten (b :: bs) ++ tail = b ++ (bs.flatten ++ tail) := by
        simp [List.flatten_cons]
      rw [harr]
      rw [List.take_left' hb, List.drop_left' hb]
      rw [chunksAux_exact k hk bs tail f
        (fun x hx => hblocks x (List.mem_cons_of_mem b hx)) htail (by omega)]

theorem chunks_exact (k : Nat) (hk : 0 < k) (blocks : List (List α)) (tail : List α)
    (hblocks : ∀ b ∈ blocks, b.length = k) (htail : tail.length < k) :
    chunks k (blocks.flatten ++ tail) = blocks :=
  chunksAux_exact k hk blocks tail _ hblocks htail (le_refl _)

/-! ## Merkle block serialization model -/

theorem flatten_length_const (k : Nat) :
    ∀ (hs : List (List α)), (∀ h ∈ hs, h.length = k) → hs.flatten.length = k * hs.length
  | [], _ => by simp
  | h :: rest, hall => by
    have hh : h.length = k := hall h (List.mem_cons_self h rest)
    have := flatten_length_const k rest (fun x hx => hall x (List.mem_cons_of_mem h hx))
    simp only [List.flatten_cons, List.length_append, this, hh, List.length_cons]
    ring

theorem deserializeMB_serializeMB (m : MerkleBlock) (h : MBWf m) :
    deserializeMB (serializeMB m) = some m := by
  obtain ⟨hcount, hlen⟩ := h
  have hflat : m.hashes.flatten.length = 32 * m.hashes.length :=
    flatten_length_const 32 m.hashes hlen
  simp only [serializeMB, countBytes4, List.cons_append, List.nil_append, deserializeMB]
  have hn : m.hashes.length / 2 ^ 24 % 256 * 2 ^ 24 + m.hashes.length / 2 ^ 16 % 256 * 2 ^ 16 +
      m.hashes.length / 2 ^ 8 % 256 * 2 ^ 8 + m.hashes.length % 256 = m.hashes.length := by
    omega
  rw [hn, if_pos hflat]
  have : chunks 32 m.hashes.flatten = m.hashes := by
    have := chunks_exact 32 (by omega) m.hashes [] hlen (by simp)
    simpa using this
  rw [this]

/-! ## Record Codec: evaluation lemmas -/

theorem ofOption_some (e : Err) (a : α) : ofOption e (some a) = .ok a := rfl

theorem ofOption_none (e : Err) : ofOption e (none : Option α) = .error e := rfl

theorem digitVal_semicolon : digitVal ';' = none := rfl

theorem digitVal_colon : digitVal ':' = none := rfl

theorem display_ne_nil (t : CachedTransaction) : t.display ≠ [] := by
  simp only [CachedTransaction.display]
  intro h
  rcases List.append_eq_nil.mp h with ⟨_, h2⟩
  simp at h2

theorem splitOnChar_display (t : CachedTransaction) (bs : List Byte)
    (hhex : hexPairs t.tx_hex = some bs) (mb : MerkleBlock)
    (hmb : t.merkle_block = some mb) :
    splitOnChar ';' t.display =
      [t.tx_hex, natToDec t.height, natToDec t.position, bytesToHex (serializeMB mb)] := by
  simp only [CachedTransaction.display, hmb]
  rw [splitOnChar_append ';' _ _ (not_mem_of_hexPairs _ _ hhex ';' hexVal_semicolon),
    splitOnChar_append ';' _ _ (natToDec_not_mem _ ';' digitVal_semicolon),
    splitOnChar_append ';' _ _ (natToDec_not_mem _ ';' digitVal_semicolon),
    splitOnChar_of_not_mem ';' _
      (not_mem_of_hexPairs _ _ (hexPairs_bytesToHex _) ';' hexVal_semicolon)]

/-- Decoding inverts the `Display` encoding on any well-formed transaction
record (the txid field being recomputed from `tx_hex`). -/
theorem tryFrom_display (t : CachedTransaction) (h : TxRecordWf t) :
    CachedTransaction.tryFrom t.display = .ok t := by
  obtain ⟨hh, hp, ⟨bs, tx, hhex, hdes, hhash⟩, mb, hmb, hmbwf⟩ := h
  rw [CachedTransaction.tryFrom, splitOnChar_display t bs hhex mb hmb]
  simp only [get_arg, bind, Except.bind, ofOption, hexPairs_bytesToHex,
    deserializeMB_serializeMB mb hmbwf, hhex, hdes, parseUInt_natToDec _ _ hh,
    parseUInt_natToDec _ _ hp]
  cases t
  simp only [CachedTransaction.mk.injEq] at hhash hmb ⊢
  simp_all

theorem colon_not_mem_display (t : CachedTransaction) (bs : List Byte)
    (hhex : hexPairs t.tx_hex = some bs) : ':' ∉ t.display := by
  intro hmem
  rcases hm : t.merkle_block with _ | mb <;>
    simp only [CachedTransaction.display, hm] at hmem <;>
  · rcases List.mem_append.mp hmem with hc | hc
    · exact not_mem_of_hexPairs _ _ hhex ':' hexVal_colon hc
    rcases List.mem_cons.mp hc with hc | hc
    · exact absurd hc (by decide)
    rcases List.mem_append.mp hc with hc | hc
    · exact natToDec_not_mem _ ':' digitVal_colon hc
    rcases List.mem_cons.mp hc with hc | hc
    · exact absurd hc (by decide)
    rcases List.mem_append.mp hc with hc | hc
    · exact natToDec_not_mem _ ':' digitVal_colon hc
    rcases List.mem_cons.mp hc with hc | hc
    · exact absurd hc (by decide)
    first
    | exact absurd hc (by simp)
    | exact not_mem_of_hexPairs _ _ (hexPairs_bytesToHex (serializeMB _)) ':'
        hexVal_colon hc

theorem splitOnChar_txBlob (txs : List CachedTransaction)
    (h : ∀ t ∈ txs, TxRecordWf t) :
    splitOnChar ':' ((txs.map (fun t => t.display ++ [':'])).flatten) =
      txs.map CachedTransaction.display ++ [[]] := by
  induction txs with
  | nil => rfl
  | cons t rest ih =>
    obtain ⟨_, _, ⟨bs, tx, hhex, _⟩, _⟩ := h t (List.mem_cons_self t rest)
    simp only [List.map_cons, List.flatten_cons, List.append_assoc, List.singleton_append]
    rw [splitOnChar_append ':' _ _ (colon_not_mem_display t bs hhex),
      ih (fun x hx => h x (List.mem_cons_of_mem t hx))]
    simp

theorem decodeTxSegments_display (txs : List CachedTransaction)
    (h : ∀ t ∈ txs, TxRecordWf t) :
    decodeTxSegments (txs.map CachedTransaction.display ++ [[]]) = .ok txs := by
  induction txs with
  | nil => rfl
  | cons t rest ih =>
    have hwf := h t (List.mem_cons_self t rest)
    simp only [List.map_cons, List.cons_append, decodeTxSegments,
      if_neg (display_ne_nil t), tryFrom_display t hwf, bind, Except.bind,
      List.append_eq, ih (fun x hx => h x (List.mem_cons_of_mem t hx))]

/-- Decoding inverts the persisted address encoding on any well-formed
address record. -/
theorem tryFrom_encode (a : CachedAddress) (h : AddrRecordWf a) :
    CachedAddress.tryFrom a.encode = .ok a := by
  obtain ⟨hlen, hbal, htxs⟩ := h
  have hsplit : splitOnChar ':' a.encode =
      bytesToHex a.script_hash :: natToDec a.balance :: bytesToHex a.script ::
        (a.transactions.map CachedTransaction.display ++ [[]]) := by
    simp only [CachedAddress.encode]
    rw [splitOnChar_append ':' _ _
        (not_mem_of_hexPairs _ _ (hexPairs_bytesToHex _) ':' hexVal_colon),
      splitOnChar_append ':' _ _ (natToDec_not_mem _ ':' digitVal_colon),
      splitOnChar_append ':' _ _
        (not_mem_of_hexPairs _ _ (hexPairs_bytesToHex _) ':' hexVal_colon),
      splitOnChar_txBlob a.transactions htxs]
  rw [CachedAddress.tryFrom, hsplit]
  simp only [get_arg, bind, Except.bind, ofOption, hashFromHex, hexPairs_bytesToHex,
    hlen, if_true, decodeTxSegments_display a.transactions htxs,
    parseUInt_natToDec _ _ hbal]

/-! ## Claim C1 -/

/-- Claim C1 as frozen is false: a valid address (every `txHex`
deserializing to a transaction whose id equals the stored txid) whose
transaction record lacks its merkle proof encodes with an empty
`merkleProofHex` segment, and decoding that segment fails (the consensus
decoder rejects the empty byte string), so `decode(encode(a))` is an error,
not `a`. -/
theorem claim_c1_counterexample :
    ¬ ∀ a : CachedAddress, ClaimC1Valid a →
      CachedAddress.tryFrom a.encode = .ok a := by
  intro hclaim
  have hvalid : ClaimC1Valid c1Bad := by
    refine ⟨by decide, by decide, ?_⟩
    intro t ht
    have ht' : t = badTx := by simpa [c1Bad] using ht
    subst ht'
    refine ⟨by decide, by decide, ?_, [1], ⟨[1], []⟩, by decide, by decide, by decide⟩
    intro mb hmb
    simp [badTx] at hmb
  have := hclaim c1Bad hvalid
  exact absurd this (by decide)

/-- Claim C1 (amended): for every valid `CachedAddress` whose transactions
each moreover carry their merkle proof (well-formed, as the Rust types
guarantee), decoding the address-record text produced by encoding yields the
address back field-wise, the txid recomputed from `txHex`. -/
theorem claim_c1_record_roundtrip (a : CachedAddress) (h : AddrRecordWf a) :
    CachedAddress.tryFrom a.encode = .ok a :=
  tryFrom_encode a h

theorem claim_c1_witness :
    CachedAddress.tryFrom c1Good.encode = .ok c1Good :=
  claim_c1_record_roundtrip c1Good
    (by
      refine ⟨by decide, by decide, ?_⟩
      intro t ht
      have ht' : t = goodTx := by simpa [c1Good] using ht
      subst ht'
      exact ⟨by decide, by decide,
        ⟨[1], ⟨[1], []⟩, by decide, by decide, by decide⟩,
        ⟨[List.replicate 32 2]⟩, by decide, by decide, by decide⟩)

/-! ## Claim C6 -/

theorem tryFrom_isOk_iff (s : Str) :
    (∃ v, CachedTransaction.tryFrom s = .ok v) ↔ TxDecodeOk s := by
  rcases hsplit : splitOnChar ';' s with _ | ⟨a, _ | ⟨b, _ | ⟨c, _ | ⟨d, rest⟩⟩⟩⟩ <;>
    rw [CachedTransaction.tryFrom] <;>
    simp only [TxDecodeOk, hsplit, get_arg, bind, Except.bind, ofOption]
  · simp
  · simp
  · simp
  · simp
  constructor
  · rintro ⟨v, hv⟩
    rcases h1 : hexPairs d with _ | mbBytes <;> rw [h1] at hv
    · simp at hv
    simp only [] at hv
    rcases h2 : deserializeMB mbBytes with _ | mb <;> rw [h2] at hv
    · simp at hv
    simp only [] at hv
    rcases h3 : hexPairs a with _ | txBytes <;> rw [h3] at hv
    · simp at hv
    simp only [] at hv
    rcases h4 : deserializeTx txBytes with _ | tx <;> rw [h4] at hv
    · simp at hv
    simp only [] at hv
    rcases h5 : parseUInt (2 ^ 32) b with _ | hn <;> rw [h5] at hv
    · simp at hv
    simp only [] at hv
    rcases h6 : parseUInt (2 ^ 32) c with _ | pn <;> rw [h6] at hv
    · simp at hv
    exact ⟨a, b, c, d, rest, rfl, ⟨mbBytes, mb, h1, h2⟩, ⟨txBytes, tx, h3, h4⟩,
      by rw [h5]; rfl, by rw [h6]; rfl⟩
  · rintro ⟨a', b', c', d', rest', heq, ⟨mbBytes, mb, h1, h2⟩,
      ⟨txBytes, tx, h3, h4⟩, h5, h6⟩
    obtain ⟨rfl, rfl, rfl, rfl, rfl⟩ : a = a' ∧ b = b' ∧ c = c' ∧ d = d' ∧ rest = rest' := by
      injection heq with e1 heq
      injection heq with e2 heq
      injection heq with e3 heq
      injection heq with e4 e5
      exact ⟨e1, e2, e3, e4, e5⟩
    rcases h5' : parseUInt (2 ^ 32) b with _ | hn
    · rw [h5'] at h5; simp at h5
    rcases h6' : parseUInt (2 ^ 32) c with _ | pn
    · rw [h6'] at h6; simp at h6
    simp [h1, h2, h3, h4, h5', h6']

/-- Claim C6 as frozen claims decoding succeeds on exactly the
four-segment strings; it is false in both directions at the concrete input
`"01;0;0;00000000;x"`: the decoder succeeds although the string has five
segments (everything after the fourth is ignored) — and separately, the
empty `merkleProofHex` the claim admits is in fact rejected. -/
theorem claim_c6_counterexample :
    ¬ ∀ s : Str, (∃ v, CachedTransaction.tryFrom s = .ok v) ↔ ClaimC6Shape s := by
  intro h
  have hok : ∃ v, CachedTransaction.tryFrom c6FiveSegs = .ok v :=
    ⟨⟨['0', '1'], 0, some ⟨[]⟩, bytesToHex (Transaction.txid ⟨[1], []⟩), 0⟩, by decide⟩
  obtain ⟨a, b, c, d, heq, _⟩ := (h c6FiveSegs).mp hok
  have he : splitOnChar ';' c6FiveSegs =
      [['0', '1'], ['0'], ['0'], ['0', '0', '0', '0', '0', '0', '0', '0'], ['x']] := by
    decide
  rw [he] at heq
  simp at heq

/-- Claim C6 (amended): transaction-record decoding succeeds on exactly the
strings whose `';'`-split begins with four segments — `txHex` valid hex of a
deserializable transaction, height and position parsing as `u32` (decimal
digits, optionally `'+'`-prefixed, below `2^32`), and `merkleProofHex` the
(necessarily nonempty) hex of a deserializable proof — any further segments
being ignored; every failure is a typed error (`Except`), never a panic. -/
theorem claim_c6_decode_characterization (s : Str) :
    (∃ v, CachedTransaction.tryFrom s = .ok v) ↔ TxDecodeOk s :=
  tryFrom_isOk_iff s

/-! ## Claim C7 -/

/-- Claim C7 as frozen is false at the persisted height `u32::MAX`
(4294967295, persistable through `bump_height`): `height + 1` is `u32`
arithmetic, so the returned range is `[0, C]`, not `[H + 1, C]`. -/
theorem claim_c7_counterexample :
    ¬ ∀ H C : Nat, H < 2 ^ 32 →
      get_sync_limits (some (natToDec H)) C = .ok (H + 1, C) := by
  intro h
  have h1 := h (2 ^ 32 - 1) 7 (by omega)
  have h2 : get_sync_limits (some (natToDec (2 ^ 32 - 1))) 7 = .ok (0, 7) := by decide
  rw [h2] at h1
  exact absurd h1 (by decide)

/-- Claim C7 (amended): for every persisted cache height `H` with
`H + 1 < 2^32` and every current height `C`, `get_sync_limits` returns the
inclusive range `[H+1, C]` (possibly empty, never an error), and it returns
`WalletNotInitialized` exactly when no height was ever persisted. -/
theorem claim_c7_sync_window :
    (∀ H C : Nat, H + 1 < 2 ^ 32 →
      get_sync_limits (some (natToDec H)) C = .ok (H + 1, C)) ∧
    (∀ C : Nat, get_sync_limits none C = .error .WalletNotInitialized) ∧
    (∀ (stored : Option Str) (C : Nat),
      get_sync_limits stored C = .error .WalletNotInitialized → stored = none) := by
  refine ⟨?_, ?_, ?_⟩
  · intro H C hH
    have hp : parseUInt (2 ^ 32) (natToDec H) = some H :=
      parseUInt_natToDec _ _ (by omega)
    simp only [get_sync_limits, get_cache_height, bind, Except.bind, ofOption, hp]
    rw [Nat.mod_eq_of_lt hH]
  · intro C
    rfl
  · intro stored C h
    rcases stored with _ | s
    · rfl
    · simp only [get_sync_limits, get_cache_height, bind, Except.bind, ofOption] at h
      rcases hp : parseUInt (2 ^ 32) s with _ | n <;> rw [hp] at h <;> simp at h

theorem claim_c7_witness :
    get_sync_limits (some (natToDec 90)) 95 = .ok (91, 95) :=
  claim_c7_sync_window.1 90 95 (by omega)

/-! ## Claim C8 -/

theorem digitVal_space : digitVal ' ' = none := rfl

theorem mapHashes_bytesToHex (roots : List (List Byte))
    (h : ∀ r ∈ roots, r.length = 32) :
    mapHashes (roots.map bytesToHex) = some roots := by
  induction roots with
  | nil => rfl
  | cons r rest ih =>
    have hr : hashFromHex (bytesToHex r) = some r := by
      simp [hashFromHex, hexPairs_bytesToHex, h r (List.mem_cons_self r rest)]
    simp only [List.map_cons, mapHashes, hr,
      ih (fun x hx => h x (List.mem_cons_of_mem r hx))]

theorem load_acc_encode_append (s : Stump) (h : StumpWf s) (extra : Str)
    (hlen : extra.length < 64) (hsp : ' ' ∉ extra) :
    load_acc (some (s.encode ++ extra)) = .ok s := by
  obtain ⟨hleafs, hroots⟩ := h
  have hnosp : ' ' ∉ (s.roots.map bytesToHex).flatten ++ extra := by
    intro hmem
    rcases List.mem_append.mp hmem with hc | hc
    · obtain ⟨l, hl, hcl⟩ := List.mem_flatten.mp hc
      obtain ⟨r, _, rfl⟩ := List.mem_map.mp hl
      exact not_mem_of_hexPairs _ _ (hexPairs_bytesToHex r) ' ' hexVal_space hcl
    · exact hsp hc
  have hsplit : splitOnChar ' ' (s.encode ++ extra) =
      [natToDec s.leafs, (s.roots.map bytesToHex).flatten ++ extra] := by
    simp only [Stump.encode, List.append_assoc, List.cons_append]
    rw [splitOnChar_append ' ' _ _ (natToDec_not_mem _ ' ' digitVal_space),
      splitOnChar_of_not_mem ' ' _ hnosp]
  have hchunks : chunks 64 ((s.roots.map bytesToHex).flatten ++ extra) =
      s.roots.map bytesToHex := by
    refine chunks_exact 64 (by omega) _ extra ?_ hlen
    intro b hb
    obtain ⟨r, hr, rfl⟩ := List.mem_map.mp hb
    rw [bytesToHex_length, hroots r hr]
  simp only [load_acc, hsplit, parseUInt_natToDec _ _ hleafs, List.head?_cons,
    hchunks, mapHashes_bytesToHex s.roots hroots]

/-- Claim C8: the accumulator snapshot codec round-trips on every snapshot
with 32-byte roots, and the decoder is lenient — it takes 64-character
chunks until fewer than 64 characters remain and silently ignores a shorter
trailing remainder. -/
theorem claim_c8_acc_roundtrip (s : Stump) (h : StumpWf s) :
    load_acc (some s.encode) = .ok s ∧
      ∀ extra : Str, extra.length < 64 → ' ' ∉ extra →
        load_acc (some (s.encode ++ extra)) = .ok s := by
  refine ⟨?_, fun extra h1 h2 => load_acc_encode_append s h extra h1 h2⟩
  have := load_acc_encode_append s h [] (by simp) (by simp)
  simpa using this

theorem claim_c8_witness :
    load_acc (some (Stump.mk 5 [List.replicate 32 1]).encode) =
      .ok ⟨5, [List.replicate 32 1]⟩ :=
  (claim_c8_acc_roundtrip ⟨5, [List.replicate 32 1]⟩ ⟨by decide, by decide⟩).1

/-! ## Association-list lemmas (HashMap/HashSet model) -/

theorem lookupA_insertA (l : List (List Byte × α)) (k k' : List Byte) (v : α) :
    lookupA (insertA l k v) k' = if k = k' then some v else lookupA l k' := by
  induction l with
  | nil => simp [insertA, lookupA]
  | cons p rest ih =>
    obtain ⟨a, b⟩ := p
    by_cases hak : a = k
    · subst hak
      by_cases hkk' : a = k' <;> simp [insertA, lookupA, hkk']
    · by_cases hkk' : k = k'
      · subst hkk'
        simp [insertA, lookupA, hak, ih]
      · simp [insertA, lookupA, hak, hkk', ih]

theorem insertA_of_lookup_none (l : List (List Byte × α)) (k : List Byte) (v : α)
    (h : lookupA l k = none) : insertA l k v = l ++ [(k, v)] := by
  induction l with
  | nil => rfl
  | cons p rest ih =>
    obtain ⟨a, b⟩ := p
    simp only [lookupA] at h
    by_cases hak : a = k
    · simp [hak] at h
    · rw [if_neg hak] at h
      simp [insertA, hak, ih h]

theorem insertA_keys_of_present (l : List (List Byte × α)) (k : List Byte) (v : α)
    (h : (lookupA l k).isSome) : (insertA l k v).map Prod.fst = l.map Prod.fst := by
  induction l with
  | nil => simp [lookupA] at h
  | cons p rest ih =>
    obtain ⟨a, b⟩ := p
    simp only [lookupA] at h
    by_cases hak : a = k
    · simp [insertA, hak]
    · rw [if_neg hak] at h
      simp [insertA, hak, ih h]

theorem length_insertA_present (l : List (List Byte × α)) (k : List Byte) (v : α)
    (h : (lookupA l k).isSome) : (insertA l k v).length = l.length := by
  have := insertA_keys_of_present l k v h
  have h1 := congrArg List.length this
  simpa using h1

theorem mem_insertS [DecidableEq α] (l : List α) (a x : α) :
    x ∈ insertS l a ↔ x ∈ l ∨ x = a := by
  induction l with
  | nil => simp [insertS]
  | cons b rest ih =>
    by_cases hb : b = a
    · subst hb
      rw [insertS, if_pos rfl]
      simp only [List.mem_cons]
      tauto
    · rw [insertS, if_neg hb]
      simp only [List.mem_cons, ih]
      tauto

theorem insertS_of_not_mem [DecidableEq α] (l : List α) (a : α) (h : a ∉ l) :
    insertS l a = l ++ [a] := by
  induction l with
  | nil => rfl
  | cons b rest ih =>
    have hb : b ≠ a := fun he => h (he ▸ List.mem_cons_self b rest)
    have hrest : a ∉ rest := fun hm => h (List.mem_cons_of_mem b hm)
    simp [insertS, hb, ih hrest]

/-! ## Claim C4 -/

theorem cache_transaction_of_contains (c : AddressCache) (t : Transaction)
    (height : Nat) (out : TxOut) (mb : MerkleBlock) (position : Nat)
    (a : CachedAddress)
    (hl : lookupA c.address_map (get_spk_hash out.script_pubkey) = some a)
    (hmem : txRecord t height mb position ∈ a.transactions) :
    c.cache_transaction t height out mb position = c := by
  rw [AddressCache.cache_transaction]
  simp only [hl, if_pos hmem]

theorem cache_transaction_mem_after (c : AddressCache) (t : Transaction)
    (height : Nat) (out : TxOut) (mb : MerkleBlock) (position : Nat) :
    ∃ a, lookupA (c.cache_transaction t height out mb position).address_map
        (get_spk_hash out.script_pubkey) = some a ∧
      txRecord t height mb position ∈ a.transactions := by
  rw [AddressCache.cache_transaction]
  rcases hl : lookupA c.address_map (get_spk_hash out.script_pubkey) with _ | a
  · refine ⟨⟨get_spk_hash out.script_pubkey, 0, [txRecord t height mb position],
      out.script_pubkey⟩, ?_, by simp⟩
    simp [lookupA_insertA]
  · by_cases hmem : txRecord t height mb position ∈ a.transactions
    · simp only [if_pos hmem]
      exact ⟨a, hl, hmem⟩
    · simp only [if_neg hmem]
      refine ⟨{ a with transactions := a.transactions ++ [txRecord t height mb position] },
        ?_, by simp⟩
      simp [lookupA_insertA]

/-- Claim C4: `cache_transaction` is idempotent — a second call with
identical arguments leaves the entire engine state (in particular the owning
address's history, its length and contents) exactly unchanged, because the
record built from identical arguments is already in the history and the
early `contains` return fires. -/
theorem claim_c4_cache_transaction_idempotent (c : AddressCache) (t : Transaction)
    (height : Nat) (out : TxOut) (mb : MerkleBlock) (position : Nat) :
    (c.cache_transaction t height out mb position).cache_transaction
        t height out mb position =
      c.cache_transaction t height out mb position := by
  obtain ⟨a, hl, hmem⟩ := cache_transaction_mem_after c t height out mb position
  exact cache_transaction_of_contains _ t height out mb position a hl hmem

/-! ## Claim C10 -/

/-- Claim C10: queries on unknown keys return benign defaults — empty
history and zero balance for an unwatched script hash; `None` from
`get_transaction` and hence from `get_height`/`get_cached_transaction` (and
`Some(None)`-free `get_merkle_proof` returns `ok none`) for a txid that is
unindexed, or whose index entry points at a missing address or a dead
history slot. -/
theorem claim_c10_benign_defaults (c : AddressCache) :
    (∀ sh, lookupA c.address_map sh = none →
      c.get_address_history sh = [] ∧ c.get_address_balance sh = 0) ∧
    (∀ txid, lookupA c.tx_index txid = none → c.get_transaction txid = none) ∧
    (∀ txid sh pos, lookupA c.tx_index txid = some (sh, pos) →
      lookupA c.address_map sh = none → c.get_transaction txid = none) ∧
    (∀ txid sh pos a, lookupA c.tx_index txid = some (sh, pos) →
      lookupA c.address_map sh = some a → a.transactions.length ≤ pos →
      c.get_transaction txid = none) ∧
    (∀ txid, c.get_transaction txid = none →
      c.get_height txid = none ∧ c.get_cached_transaction txid = none ∧
        c.get_merkle_proof txid = .ok none) := by
  refine ⟨?_, ?_, ?_, ?_, ?_⟩
  · intro sh h
    simp [AddressCache.get_address_history, AddressCache.get_address_balance, h]
  · intro txid h
    simp [AddressCache.get_transaction, h]
  · intro txid sh pos h1 h2
    rw [AddressCache.get_transaction, h1]
    simp only [] 
    rw [h2]
  · intro txid sh pos a h1 h2 h3
    rw [AddressCache.get_transaction, h1]
    simp only []
    rw [h2]
    simp only []
    exact List.get?_len_le h3
  · intro txid h
    simp [AddressCache.get_height, AddressCache.get_cached_transaction,
      AddressCache.get_merkle_proof, h]

theorem claim_c10_witness :
    initCache.get_address_history [5] = [] ∧ initCache.get_address_balance [5] = 0 :=
  (claim_c10_benign_defaults initCache).1 [5] rfl

/-! ## Claim C9 -/

/-- Claim C9: whenever `get_merkle_proof` returns a sibling-hash list, no
element of it is the target txid's hex — the filter excludes the target, and
hex rendering is injective on byte strings. -/
theorem claim_c9_proof_excludes_target (c : AddressCache) (txid : List Byte)
    (hashes : List Str) (position : Nat)
    (h : c.get_merkle_proof txid = .ok (some (hashes, position))) :
    bytesToHex txid ∉ hashes := by
  rw [AddressCache.get_merkle_proof] at h
  rcases ht : c.get_transaction txid with _ | tx <;> rw [ht] at h
  · simp at h
  simp only [] at h
  rcases hm : tx.merkle_block with _ | mb <;> rw [hm] at h
  · simp at h
  simp only [] at h
  simp only [PResult.ok.injEq, Option.some.injEq, Prod.mk.injEq] at h
  obtain ⟨hh, -⟩ := h
  subst hh
  intro hmem
  obtain ⟨x, hxmem, hxeq⟩ := List.mem_map.mp hmem
  have hxt : x = txid := bytesToHex_injective _ _ hxeq
  have hfil := (List.mem_filter.mp hxmem).2
  rw [hxt] at hfil
  simp at hfil

theorem claim_c9_witness :
    bytesToHex (Transaction.txid txA) ∉ [bytesToHex [7]] :=
  claim_c9_proof_excludes_target wState (Transaction.txid txA)
    [bytesToHex [7]] 0 (by decide)

/-! ## Claim C3 -/

/-- Claim C3 as frozen is false: `cache_address` on an already-watched
script is not a data-level no-op — it replaces the record, so a one-element
history becomes empty. -/
theorem claim_c3_counterexample :
    ¬ ∀ (c : AddressCache) (s : Script),
      (lookupA c.address_map (get_spk_hash s)).isSome →
      (c.cache_address s).get_address_history (get_spk_hash s) =
          c.get_address_history (get_spk_hash s) ∧
        (c.cache_address s).get_address_balance (get_spk_hash s) =
          c.get_address_balance (get_spk_hash s) ∧
        (c.cache_address s).tx_index = c.tx_index := by
  intro h
  have := (h wState [9, 9] (by decide)).1
  exact absurd this (by decide)

/-- Claim C3 (amended): `watchScript` on an already-watched script hash is
not a data-level no-op: it replaces the address record with a fresh
empty-history zero-balance one, while the addressMap key list, `tx_index`
(now possibly dangling) and the accumulator are unchanged, and `script_set`
merely gains the script. -/
theorem claim_c3_rewatch_replaces (c : AddressCache) (s : Script)
    (h : (lookupA c.address_map (get_spk_hash s)).isSome) :
    lookupA (c.cache_address s).address_map (get_spk_hash s) =
        some ⟨get_spk_hash s, 0, [], s⟩ ∧
      (c.cache_address s).address_map.map Prod.fst = c.address_map.map Prod.fst ∧
      (c.cache_address s).tx_index = c.tx_index ∧
      (c.cache_address s).script_set = insertS c.script_set s ∧
      (c.cache_address s).acc = c.acc := by
  refine ⟨?_, ?_, rfl, rfl, rfl⟩
  · simp [AddressCache.cache_address, lookupA_insertA]
  · exact insertA_keys_of_present _ _ _ h

theorem claim_c3_witness :
    lookupA (wState.cache_address [9, 9]).address_map (get_spk_hash [9, 9]) =
      some ⟨get_spk_hash [9, 9], 0, [], [9, 9]⟩ :=
  (claim_c3_rewatch_replaces wState [9, 9] (by decide)).1

/-! ## Branch characterizations of the mutating operations -/

theorem cache_address_def (c : AddressCache) (s : Script) :
    c.cache_address s =
      { c with
        address_map := insertA c.address_map (get_spk_hash s) ⟨get_spk_hash s, 0, [], s⟩
        script_set := insertS c.script_set s } := rfl

theorem cache_transaction_absent (c : AddressCache) (t : Transaction) (height : Nat)
    (out : TxOut) (mb : MerkleBlock) (position : Nat)
    (h : lookupA c.address_map (get_spk_hash out.script_pubkey) = none) :
    c.cache_transaction t height out mb position =
      { c with
        address_map := insertA c.address_map (get_spk_hash out.script_pubkey)
          ⟨get_spk_hash out.script_pubkey, 0, [txRecord t height mb position],
            out.script_pubkey⟩
        script_set := insertS c.script_set out.script_pubkey } := by
  rw [AddressCache.cache_transaction, h]

theorem cache_transaction_present_new (c : AddressCache) (t : Transaction) (height : Nat)
    (out : TxOut) (mb : MerkleBlock) (position : Nat) (a : CachedAddress)
    (hl : lookupA c.address_map (get_spk_hash out.script_pubkey) = some a)
    (hmem : txRecord t height mb position ∉ a.transactions) :
    c.cache_transaction t height out mb position =
      { c with
        tx_index := insertA c.tx_index t.txid (a.script_hash, a.transactions.length)
        address_map := insertA c.address_map (get_spk_hash out.script_pubkey)
          { a with transactions := a.transactions ++ [txRecord t height mb position] } } := by
  rw [AddressCache.cache_transaction, hl]
  simp only [if_neg hmem]

/-! ## The script-set invariant and reachability -/

theorem scriptSetInv_cache_address (c : AddressCache) (s : Script)
    (h : ScriptSetInv c) : ScriptSetInv (c.cache_address s) := by
  intro x hx
  rw [cache_address_def] at hx ⊢
  simp only [] at hx ⊢
  rw [mem_insertS] at hx
  rw [lookupA_insertA]
  rcases hx with hx | rfl
  · by_cases he : get_spk_hash s = get_spk_hash x
    · rw [if_pos he]; rfl
    · rw [if_neg he]; exact h x hx
  · rw [if_pos rfl]; rfl

theorem scriptSetInv_cache_transaction (c : AddressCache) (t : Transaction)
    (height : Nat) (out : TxOut) (mb : MerkleBlock) (position : Nat)
    (h : ScriptSetInv c) :
    ScriptSetInv (c.cache_transaction t height out mb position) := by
  rcases hl : lookupA c.address_map (get_spk_hash out.script_pubkey) with _ | a
  · rw [cache_transaction_absent _ _ _ _ _ _ hl]
    intro x hx
    simp only [] at hx ⊢
    rw [mem_insertS] at hx
    rw [lookupA_insertA]
    rcases hx with hx | rfl
    · by_cases he : get_spk_hash out.script_pubkey = get_spk_hash x
      · rw [if_pos he]; rfl
      · rw [if_neg he]; exact h x hx
    · rw [if_pos rfl]; rfl
  · by_cases hmem : txRecord t height mb position ∈ a.transactions
    · rw [cache_transaction_of_contains _ _ _ _ _ _ a hl hmem]; exact h
    · rw [cache_transaction_present_new _ _ _ _ _ _ a hl hmem]
      intro x hx
      simp only [] at hx ⊢
      rw [lookupA_insertA]
      by_cases he : get_spk_hash out.script_pubkey = get_spk_hash x
      · rw [if_pos he]; rfl
      · rw [if_neg he]; exact h x hx

theorem scriptSetInv_processOutputs (b : Block) (tx : Transaction)
    (height position : Nat) :
    ∀ (outs : List TxOut) (c : AddressCache), ScriptSetInv c →
      ScriptSetInv (processOutputs b tx height position outs c)
  | [], c, h => h
  | out :: rest, c, h => by
    rw [processOutputs]
    by_cases hmem : out.script_pubkey ∈ c.script_set
    · rw [if_pos hmem]
      exact scriptSetInv_processOutputs b tx height position rest _
        (scriptSetInv_cache_transaction _ _ _ _ _ _ h)
    · rw [if_neg hmem]
      exact scriptSetInv_processOutputs b tx height position rest _ h

theorem scriptSetInv_processTxs (b : Block) (height : Nat) :
    ∀ (position : Nat) (txs : List Transaction) (c : AddressCache), ScriptSetInv c →
      ScriptSetInv (processTxs b height position txs c)
  | _, [], _, h => h
  | position, tx :: rest, c, h =>
    scriptSetInv_processTxs b height (position + 1) rest _
      (scriptSetInv_processOutputs b tx height position tx.output c h)

theorem scriptSetInv_block_process (c : AddressCache) (b : Block) (height : Nat)
    (newAcc : Stump) (h : ScriptSetInv c) :
    ScriptSetInv (c.block_process b height newAcc) :=
  scriptSetInv_processTxs b height 0 b.txdata { c with acc := newAcc } h

theorem scriptSetInv_loadAddresses :
    ∀ (scripts : List CachedAddress) (c : AddressCache),
      (∀ a ∈ scripts, a.script_hash = get_spk_hash a.script) →
      ScriptSetInv c → ScriptSetInv (loadAddresses scripts c)
  | [], c, _, h => h
  | a :: rest, c, hwf, h => by
    rw [loadAddresses]
    refine scriptSetInv_loadAddresses rest _
      (fun x hx => hwf x (List.mem_cons_of_mem a hx)) ?_
    intro x hx
    simp only [] at hx ⊢
    rw [mem_insertS] at hx
    rw [lookupA_insertA]
    rcases hx with hx | rfl
    · by_cases he : a.script_hash = get_spk_hash x
      · rw [if_pos he]; rfl
      · rw [if_neg he]; exact h x hx
    · rw [if_pos (hwf a (List.mem_cons_self a rest))]
      rfl

theorem new_ok_inv (scripts : List CachedAddress) (accStr : Option Str)
    (c : AddressCache) (h : AddressCache.new scripts accStr = .ok c) :
    (∃ acc, c = loadAddresses scripts ⟨[], [], [], acc⟩) ∧
      ∀ a ∈ scripts, ∀ t ∈ a.transactions, (hashFromHex t.hash).isSome := by
  rw [AddressCache.new] at h
  by_cases hall : scripts.all
      (fun a => a.transactions.all fun t => (hashFromHex t.hash).isSome) = true
  · rw [if_pos hall] at h
    rcases hacc : load_acc accStr with acc | _ <;> rw [hacc] at h
    · refine ⟨⟨acc, ?_⟩, ?_⟩
      · injection h with h'
        exact h'.symm
      · intro a ha t ht
        exact List.all_eq_true.mp (List.all_eq_true.mp hall a ha) t ht
    · exact absurd h (by simp)
  · rw [if_neg hall] at h
    exact absurd h (by simp)

theorem reachable_scriptSetInv (c : AddressCache) (h : Reachable c) :
    ScriptSetInv c := by
  induction h with
  | base scripts accStr c hwf hnew =>
    obtain ⟨⟨acc, rfl⟩, -⟩ := new_ok_inv scripts accStr c hnew
    exact scriptSetInv_loadAddresses scripts _ hwf.2 (fun x hx => by simp at hx)
  | watch c s hr ih => exact scriptSetInv_cache_address c s ih
  | cacheTx c t height out mb position hr ih =>
    exact scriptSetInv_cache_transaction c t height out mb position ih
  | blockP c b height newAcc hr ih =>
    exact scriptSetInv_block_process c b height newAcc ih

theorem loadWf_nil : LoadWf [] :=
  ⟨List.Pairwise.nil, by simp⟩

theorem new_nil : AddressCache.new [] none = .ok initCache := rfl

theorem reachable_initCache : Reachable initCache :=
  Reachable.base [] none initCache loadWf_nil new_nil

theorem reachableFresh_initCache : ReachableFresh initCache :=
  ReachableFresh.base [] none initCache loadWf_nil new_nil

/-! ## Claim C5 -/

/-- Claim C5: in any reachable state, caching a transaction for an output
whose script hash is not watched adds exactly one entry to `address_map` and
exactly one entry to `script_set` (both appended), the new address carrying
a one-element history and zero balance, with `tx_index` untouched. -/
theorem claim_c5_auto_subscribe (c : AddressCache) (t : Transaction) (height : Nat)
    (out : TxOut) (mb : MerkleBlock) (position : Nat) (hr : Reachable c)
    (habs : lookupA c.address_map (get_spk_hash out.script_pubkey) = none) :
    (c.cache_transaction t height out mb position).address_map =
        c.address_map ++ [(get_spk_hash out.script_pubkey,
          ⟨get_spk_hash out.script_pubkey, 0, [txRecord t height mb position],
            out.script_pubkey⟩)] ∧
      (c.cache_transaction t height out mb position).script_set =
        c.script_set ++ [out.script_pubkey] ∧
      (c.cache_transaction t height out mb position).address_map.length =
        c.address_map.length + 1 ∧
      (c.cache_transaction t height out mb position).script_set.length =
        c.script_set.length + 1 ∧
      (c.cache_transaction t height out mb position).get_address_history
          (get_spk_hash out.script_pubkey) = [txRecord t height mb position] ∧
      (c.cache_transaction t height out mb position).get_address_balance
          (get_spk_hash out.script_pubkey) = 0 ∧
      (c.cache_transaction t height out mb position).tx_index = c.tx_index := by
  have hnotmem : out.script_pubkey ∉ c.script_set := by
    intro hmem
    have := reachable_scriptSetInv c hr out.script_pubkey hmem
    rw [habs] at this
    simp at this
  rw [cache_transaction_absent c t height out mb position habs]
  refine ⟨?_, ?_, ?_, ?_, ?_, ?_, rfl⟩
  · simp only []
    rw [insertA_of_lookup_none _ _ _ habs]
  · simp only []
    rw [insertS_of_not_mem _ _ hnotmem]
  · simp only []
    rw [insertA_of_lookup_none _ _ _ habs]
    simp
  · simp only []
    rw [insertS_of_not_mem _ _ hnotmem]
    simp
  · rw [AddressCache.get_address_history]
    simp only []
    rw [lookupA_insertA, if_pos rfl]
  · rw [AddressCache.get_address_balance]
    simp only []
    rw [lookupA_insertA, if_pos rfl]

theorem claim_c5_witness :
    (initCache.cache_transaction txA 100 outA mbA 0).address_map.length =
        initCache.address_map.length + 1 ∧
      (initCache.cache_transaction txA 100 outA mbA 0).script_set.length =
        initCache.script_set.length + 1 :=
  ⟨(claim_c5_auto_subscribe initCache txA 100 outA mbA 0
      reachable_initCache rfl).2.2.1,
    (claim_c5_auto_subscribe initCache txA 100 outA mbA 0
      reachable_initCache rfl).2.2.2.1⟩

/-! ## Claim C2: the reverse-index invariant -/

theorem digest_length (bs : List Byte) : (digest bs).length = 32 := by
  simp [digest]

theorem txid_length (t : Transaction) : t.txid.length = 32 :=
  digest_length _

theorem hashFromHex_bytesToHex (bs : List Byte) (h : bs.length = 32) :
    hashFromHex (bytesToHex bs) = some bs := by
  simp [hashFromHex, hexPairs_bytesToHex, h]

theorem keyInv_cache_address (c : AddressCache) (s : Script) (h : KeyInv c) :
    KeyInv (c.cache_address s) := by
  intro k a ha
  rw [cache_address_def] at ha
  simp only [] at ha
  rw [lookupA_insertA] at ha
  by_cases he : get_spk_hash s = k
  · rw [if_pos he] at ha
    injection ha with ha
    rw [← ha]
    exact he
  · rw [if_neg he] at ha
    exact h k a ha

theorem keyInv_cache_transaction (c : AddressCache) (t : Transaction) (height : Nat)
    (out : TxOut) (mb : MerkleBlock) (position : Nat) (h : KeyInv c) :
    KeyInv (c.cache_transaction t height out mb position) := by
  rcases hl : lookupA c.address_map (get_spk_hash out.script_pubkey) with _ | a
  · rw [cache_transaction_absent _ _ _ _ _ _ hl]
    intro k x hx
    simp only [] at hx
    rw [lookupA_insertA] at hx
    by_cases he : get_spk_hash out.script_pubkey = k
    · rw [if_pos he] at hx
      injection hx with hx
      rw [← hx]
      exact he
    · rw [if_neg he] at hx
      exact h k x hx
  · by_cases hmem : txRecord t height mb position ∈ a.transactions
    · rw [cache_transaction_of_contains _ _ _ _ _ _ a hl hmem]
      exact h
    · rw [cache_transaction_present_new _ _ _ _ _ _ a hl hmem]
      intro k x hx
      simp only [] at hx
      rw [lookupA_insertA] at hx
      by_cases he : get_spk_hash out.script_pubkey = k
      · rw [if_pos he] at hx
        injection hx with hx
        rw [← hx]
        simp only []
        rw [h _ a hl]
        exact he
      · rw [if_neg he] at hx
        exact h k x hx

theorem txIndexInv_cache_address_fresh (c : AddressCache) (s : Script)
    (hi : TxIndexInv c)
    (habs : lookupA c.address_map (get_spk_hash s) = none) :
    TxIndexInv (c.cache_address s) := by
  rw [cache_address_def]
  intro txid sh pos hx
  simp only [] at hx
  obtain ⟨b, hb, tt, htt, hparse⟩ := hi txid sh pos hx
  refine ⟨b, ?_, tt, htt, hparse⟩
  simp only []
  rw [lookupA_insertA]
  by_cases he : get_spk_hash s = sh
  · rw [← he] at hb
    rw [habs] at hb
    exact absurd hb (by simp)
  · rw [if_neg he]
    exact hb

theorem txIndexInv_cache_transaction (c : AddressCache) (t : Transaction)
    (height : Nat) (out : TxOut) (mb : MerkleBlock) (position : Nat)
    (hk : KeyInv c) (hi : TxIndexInv c) :
    TxIndexInv (c.cache_transaction t height out mb position) := by
  rcases hl : lookupA c.address_map (get_spk_hash out.script_pubkey) with _ | a
  · rw [cache_transaction_absent _ _ _ _ _ _ hl]
    intro txid sh pos hx
    simp only [] at hx
    obtain ⟨b, hb, tt, htt, hparse⟩ := hi txid sh pos hx
    refine ⟨b, ?_, tt, htt, hparse⟩
    simp only []
    rw [lookupA_insertA]
    by_cases he : get_spk_hash out.script_pubkey = sh
    · rw [← he] at hb
      rw [hl] at hb
      exact absurd hb (by simp)
    · rw [if_neg he]
      exact hb
  · by_cases hmem : txRecord t height mb position ∈ a.transactions
    · rw [cache_transaction_of_contains _ _ _ _ _ _ a hl hmem]
      exact hi
    · rw [cache_transaction_present_new _ _ _ _ _ _ a hl hmem]
      have hkey : a.script_hash = get_spk_hash out.script_pubkey := hk _ a hl
      intro txid sh pos hx
      simp only [] at hx
      rw [lookupA_insertA] at hx
      by_cases he : t.txid = txid
      · rw [if_pos he] at hx
        injection hx with hx
        have hsh : sh = a.script_hash := (Prod.mk.injEq _ _ _ _ ▸ hx).1.symm
        have hpos : pos = a.transactions.length := (Prod.mk.injEq _ _ _ _ ▸ hx).2.symm
        subst hsh hpos
        refine ⟨{ a with
            transactions := a.transactions ++ [txRecord t height mb position] },
          ?_, txRecord t height mb position, ?_, ?_⟩
        · simp only []
          rw [lookupA_insertA, if_pos hkey.symm]
        · simp only []
          rw [List.get?_concat_length]
        · rw [← he]
          exact hashFromHex_bytesToHex _ (txid_length t)
      · rw [if_neg he] at hx
        obtain ⟨b, hb, tt, htt, hparse⟩ := hi txid sh pos hx
        by_cases hsh : get_spk_hash out.script_pubkey = sh
        · have hba : b = a := by
            rw [← hsh] at hb
            rw [hl] at hb
            injection hb with hb
            exact hb.symm
          subst hba
          have hlt : pos < b.transactions.length := by
            rcases List.get?_eq_some.mp htt with ⟨hp, -⟩
            exact hp
          refine ⟨{ b with
              transactions := b.transactions ++ [txRecord t height mb position] },
            ?_, tt, ?_, hparse⟩
          · simp only []
            rw [lookupA_insertA, if_pos hsh]
          · simp only []
            rw [List.get?_append hlt]
            exact htt
        · refine ⟨b, ?_, tt, htt, hparse⟩
          simp only []
          rw [lookupA_insertA, if_neg hsh]
          exact hb

theorem engineInv_processOutputs (b : Block) (tx : Transaction)
    (height position : Nat) :
    ∀ (outs : List TxOut) (c : AddressCache), KeyInv c → TxIndexInv c →
      KeyInv (processOutputs b tx height position outs c) ∧
        TxIndexInv (processOutputs b tx height position outs c)
  | [], c, hk, hi => ⟨hk, hi⟩
  | out :: rest, c, hk, hi => by
    rw [processOutputs]
    by_cases hmem : out.script_pubkey ∈ c.script_set
    · rw [if_pos hmem]
      exact engineInv_processOutputs b tx height position rest _
        (keyInv_cache_transaction _ _ _ _ _ _ hk)
        (txIndexInv_cache_transaction _ _ _ _ _ _ hk hi)
    · rw [if_neg hmem]
      exact engineInv_processOutputs b tx height position rest _ hk hi

theorem engineInv_processTxs (b : Block) (height : Nat) :
    ∀ (position : Nat) (txs : List Transaction) (c : AddressCache),
      KeyInv c → TxIndexInv c →
      KeyInv (processTxs b height position txs c) ∧
        TxIndexInv (processTxs b height position txs c)
  | _, [], _, hk, hi => ⟨hk, hi⟩
  | position, tx :: rest, c, hk, hi => by
    rw [processTxs]
    obtain ⟨hk', hi'⟩ :=
      engineInv_processOutputs b tx height position tx.output c hk hi
    exact engineInv_processTxs b height (position + 1) rest _ hk' hi'

theorem lookupA_indexTxs (sh : List Byte) :
    ∀ (k : Nat) (txs : List CachedTransaction)
      (ti : List (List Byte × (List Byte × Nat))),
      (∀ t ∈ txs, (hashFromHex t.hash).isSome) →
      ∀ (x : List Byte) (v : List Byte × Nat),
      lookupA (indexTxs sh k txs ti) x = some v →
      (∃ j t, txs.get? j = some t ∧ hashFromHex t.hash = some x ∧ v = (sh, k + j)) ∨
        lookupA ti x = some v
  | _, [], _, _, _, _, h => .inr h
  | k, t :: rest, ti, hp, x, v, h => by
    rw [indexTxs] at h
    rcases lookupA_indexTxs sh (k + 1) rest _
        (fun u hu => hp u (List.mem_cons_of_mem t hu)) x v h with
      ⟨j, u, hj, hu, hv⟩ | hold
    · refine .inl ⟨j + 1, u, by simpa using hj, hu, ?_⟩
      rw [hv]
      congr 1
      omega
    · rw [lookupA_insertA] at hold
      by_cases he : (hashFromHex t.hash).getD [] = x
      · rw [if_pos he] at hold
        injection hold with hold
        rcases hs : hashFromHex t.hash with _ | y
        · have := hp t (List.mem_cons_self t rest)
          rw [hs] at this
          simp at this
        · have hyx : y = x := by
            rw [hs] at he
            simpa using he
          refine .inl ⟨0, t, rfl, ?_, ?_⟩
          · rw [hs, hyx]
          · rw [← hold]
            simp
      · rw [if_neg he] at hold
        exact .inr hold

theorem loadAddresses_inv :
    ∀ (scripts : List CachedAddress) (c : AddressCache),
      scripts.Pairwise (fun a b => a.script_hash ≠ b.script_hash) →
      (∀ a ∈ scripts, ∀ t ∈ a.transactions, (hashFromHex t.hash).isSome) →
      (∀ a ∈ scripts, lookupA c.address_map a.script_hash = none) →
      KeyInv c → TxIndexInv c →
      KeyInv (loadAddresses scripts c) ∧ TxIndexInv (loadAddresses scripts c)
  | [], c, _, _, _, hk, hi => ⟨hk, hi⟩
  | a :: rest, c, hpw, hp, hdisj, hk, hi => by
    rw [loadAddresses]
    have hpa : ∀ t ∈ a.transactions, (hashFromHex t.hash).isSome :=
      hp a (List.mem_cons_self a rest)
    have hca : lookupA c.address_map a.script_hash = none :=
      hdisj a (List.mem_cons_self a rest)
    have hpw' := (List.pairwise_cons.mp hpw).2
    have hhead := (List.pairwise_cons.mp hpw).1
    refine loadAddresses_inv rest _ hpw'
      (fun x hx => hp x (List.mem_cons_of_mem a hx)) ?_ ?_ ?_
    · intro b hb
      simp only []
      rw [lookupA_insertA, if_neg (hhead b hb)]
      exact hdisj b (List.mem_cons_of_mem a hb)
    · intro k x hx
      simp only [] at hx
      rw [lookupA_insertA] at hx
      by_cases he : a.script_hash = k
      · rw [if_pos he] at hx
        injection hx with hx
        rw [← hx]
        exact he
      · rw [if_neg he] at hx
        exact hk k x hx
    · intro txid sh pos hx
      simp only [] at hx
      rcases lookupA_indexTxs a.script_hash 0 a.transactions c.tx_index hpa
          txid (sh, pos) hx with ⟨j, u, hj, hu, hv⟩ | hold
      · have hsh : sh = a.script_hash := (Prod.mk.injEq _ _ _ _ ▸ hv).1
        have hpos : pos = j := by
          have := (Prod.mk.injEq _ _ _ _ ▸ hv).2
          omega
        subst hsh hpos
        refine ⟨a, ?_, u, hj, hu⟩
        simp only []
        rw [lookupA_insertA, if_pos rfl]
      · obtain ⟨b, hb, tt, htt, hparse⟩ := hi txid sh pos hold
        refine ⟨b, ?_, tt, htt, hparse⟩
        simp only []
        rw [lookupA_insertA]
        by_cases he : a.script_hash = sh
        · rw [← he] at hb
          rw [hca] at hb
          exact absurd hb (by simp)
        · rw [if_neg he]
          exact hb

theorem reachableFresh_engineInv (c : AddressCache) (h : ReachableFresh c) :
    KeyInv c ∧ TxIndexInv c := by
  induction h with
  | base scripts accStr c hwf hnew =>
    obtain ⟨⟨acc, rfl⟩, hparse⟩ := new_ok_inv scripts accStr c hnew
    exact loadAddresses_inv scripts ⟨[], [], [], acc⟩ hwf.1 hparse
      (fun a ha => rfl) (fun k a hx => by simp [lookupA] at hx)
      (fun txid sh pos hx => by simp [lookupA] at hx)
  | watch c s hr habs ih =>
    exact ⟨keyInv_cache_address c s ih.1,
      txIndexInv_cache_address_fresh c s ih.2 habs⟩
  | cacheTx c t height out mb position hr ih =>
    exact ⟨keyInv_cache_transaction c t height out mb position ih.1,
      txIndexInv_cache_transaction c t height out mb position ih.1 ih.2⟩
  | blockP c b height newAcc hr ih =>
    exact engineInv_processTxs b height 0 b.txdata _ ih.1 ih.2

/-- Claim C2 as frozen is false: re-watching an already-watched script
(`cache_address`) replaces the record with an empty history while leaving
`tx_index` intact, so a reachable state has an index entry pointing into a
history slot that no longer exists. -/
theorem claim_c2_counterexample :
    ¬ ∀ c : AddressCache, Reachable c → TxIndexInv c := by
  intro h
  have hr : Reachable (wState.cache_address [9, 9]) :=
    Reachable.watch _ _ (Reachable.cacheTx _ _ _ _ _ _
      (Reachable.watch _ _ reachable_initCache))
  have hl : lookupA (wState.cache_address [9, 9]).tx_index (Transaction.txid txA) =
      some (get_spk_hash [9, 9], 0) := by decide
  obtain ⟨a, ha, t, ht, -⟩ := h _ hr _ _ _ hl
  have hmap : lookupA (wState.cache_address [9, 9]).address_map (get_spk_hash [9, 9]) =
      some ⟨get_spk_hash [9, 9], 0, [], [9, 9]⟩ := by decide
  rw [hmap] at ha
  injection ha with ha
  rw [← ha] at ht
  simp at ht

/-- Claim C2 (amended): in every state reachable by `new` on a well-formed
persisted database followed by any sequence of `cache_transaction`,
`block_process`, and `cache_address` restricted to not-yet-watched script
hashes, every `tx_index` entry `(txid, (scriptHash, position))` satisfies:
`address_map` contains `scriptHash`, `transactions[position]` exists, and
its stored txid parses back to the entry's txid.  (Unrestricted
`cache_address` breaks the invariant by resetting histories: see the
counterexample.) -/
theorem claim_c2_reverse_index_invariant (c : AddressCache)
    (h : ReachableFresh c) : TxIndexInv c :=
  (reachableFresh_engineInv c h).2

theorem reachableFresh_wState : ReachableFresh wState :=
  ReachableFresh.cacheTx _ _ _ _ _ _
    (ReachableFresh.watch _ _ reachableFresh_initCache (by decide))

theorem claim_c2_witness :
    ∃ a, lookupA wState.address_map (get_spk_hash [9, 9]) = some a ∧
      ∃ t, a.transactions.get? 0 = some t ∧
        hashFromHex t.hash = some (Transaction.txid txA) :=
  claim_c2_reverse_index_invariant wState reachableFresh_wState
    (Transaction.txid txA) (get_spk_hash [9, 9]) 0 (by decide)

end Utreexo
